import Mathlib

/-!
Verification of the monotone-diameter computation (`MonoDiamCode.py`).

The script computes the monotone diameter of a polytope graph: it extracts
the deduplicated edge directions, enumerates one orientation vector per
region of the induced hyperplane arrangement, and for each orientation
vector finds the sink (the vertex maximizing the linear functional), builds
the directed graph (edge `u → v` iff the functional strictly increases),
runs an iterative shortest-path relaxation towards the sink, and folds the
resulting directed diameters with a running maximum.

Vertices are exact rational coordinate vectors, modelled as `List ℚ`.
Dictionaries keyed by coordinate tuples are modelled as functions out of
the vertex type, updated with `Function.update`.  The graph-algorithmic
parts (relaxation, reference breadth-first search) are stated over an
arbitrary vertex type with decidable equality, exactly as the code is
purely combinatorial from the point the directed graph is built.
-/

namespace MonoDiam

/-- Coordinate vectors with exact rational entries (Sage vectors over `QQ`). -/
abbrev Vec : Type := List ℚ

/-- Dot product of two coordinate vectors (`dot_product` in Sage). -/
def dot (f w : Vec) : ℚ := (List.zipWith (fun a b => a * b) f w).sum

/-- Coordinatewise difference `v - u` of two vectors. -/
def vsub (v u : Vec) : Vec := List.zipWith (fun a b => a - b) v u

/-- Coordinatewise negation of a vector. -/
def vneg (w : Vec) : Vec := w.map (fun x => -x)

/-- Coordinatewise sum of two vectors. -/
def vadd (v u : Vec) : Vec := List.zipWith (fun a b => a + b) v u

/-- The 1-norm `Σ |xᵢ|` used by the code to normalize edge directions
(`sum([abs(x) for x in list(vector(u)-vector(v))])`). -/
def onenorm (w : Vec) : ℚ := (w.map (fun x => |x|)).sum

/-- Scaling of a difference vector by the reciprocal of its 1-norm, as in
`(vector(u)-vector(v))/sum([abs(x) ...])`. -/
def normalizeDir (w : Vec) : Vec := w.map (fun x => x / onenorm w)

/-- One step of the edge-direction dictionary build: the direction `d` is
inserted only when neither `d` nor `-d` is already present
(`if tuple(edge_dir) not in edge_dirs and tuple(-edge_dir) not in edge_dirs`). -/
def insertDir (acc : List Vec) (d : Vec) : List Vec :=
  if d ∈ acc ∨ vneg d ∈ acc then acc else acc ++ [d]

/-- The ordered pairs `(u, v)` enumerated by
`for u in P.vertices(): for v in u.neighbors():`, from a vertex list with
attached neighbor lists. -/
def edgePairs (g : List (Vec × List Vec)) : List (Vec × Vec) :=
  g.flatMap (fun p => p.2.map (fun v => (p.1, v)))

/-- The list of 1-norm-normalized directions, one per enumerated pair,
in enumeration order. -/
def dirList (g : List (Vec × List Vec)) : List Vec :=
  (edgePairs g).map (fun p => normalizeDir (vsub p.1 p.2))

/-- Folding the insertion step over a direction list, starting from the
empty dictionary. -/
def dedupDirs (ds : List Vec) : List Vec := ds.foldl insertDir []

/-- The deduplicated canonical edge-direction set of the code
(the keys of the `edge_dirs` dictionary, in insertion order). -/
def edge_dirs (g : List (Vec × List Vec)) : List Vec := dedupDirs (dirList g)

/-- The unordered pair `{d, -d}`: the parallelism class represented by a
direction vector. -/
def classPair (d : Vec) : Finset Vec := {d, vneg d}

/-- Sum of a list of ray vectors, as in
`sum([vector(ray) for ray in region.rays()])` (nonempty case; the empty
sum is modelled as the empty vector). -/
def vecSum : List Vec → Vec
  | [] => []
  | r :: rs => rs.foldl vadd r

/-- The representative orientation vectors, one appended per region
(`for region in regions: orientation_vecs.append(interior_point)`). -/
def orientation_vecs (regions : List (List Vec)) : List Vec :=
  regions.foldl (fun acc r => acc ++ [vecSum r]) []

/-- The region count reported by the code (`print(len(regions))`). -/
def region_count (regions : List (List Vec)) : Nat := regions.length

/-- One comparison of the sink scan: the current maximum is replaced when a
strictly larger functional value is seen
(`if orientation_vec.dot_product(vector(vert)) > orientation_vec.dot_product(currmax)`). -/
def scanStep (f : Vec) (c w : Vec) : Vec := if dot f c < dot f w then w else c

/-- The linear scan computing the unique sink: starting from `Pverts[0]`,
every vertex is compared against the current maximum. -/
def sink (f : Vec) (verts : List Vec) : Vec :=
  match verts with
  | [] => []
  | v :: vs => (v :: vs).foldl (scanStep f) v

/-- The out-neighbor list of a vertex in the directed graph built for the
orientation vector `f`: the neighbors `v` with
`orientation_vec.dot_product(vector(v) - vector(u)) > 0`. -/
def dir_neighbors (f : Vec) (nbrs : Vec → List Vec) (u : Vec) : List Vec :=
  (nbrs u).filter (fun v => 0 < dot f (vsub v u))

/-- Minimum of a list of naturals, as Python's `min` on a nonempty list
(the code only applies it under a nonemptiness guard; the empty case is
given the junk value 0). -/
def listMin : List Nat → Nat
  | [] => 0
  | x :: xs => xs.foldl Nat.min x

/-- Maximum of a list of naturals, as Python's `max` on a nonempty list
(junk value 0 on the empty list). -/
def listMax : List Nat → Nat
  | [] => 0
  | x :: xs => xs.foldl Nat.max x

section Relax

variable {V : Type} [DecidableEq V]

/-- The body of the relaxation round for one vertex `u`: when `u` has a
nonempty out-neighborhood and `min(distances[v]) + 1` improves on
`distances[u]`, update the distance and clear the `no_change` flag.  The
state is the pair (distance map, `no_change`). -/
def relaxVertex (adj : V → List V) (p : (V → Nat) × Bool) (u : V) :
    (V → Nat) × Bool :=
  if adj u = [] then p
  else if listMin ((adj u).map p.1) + 1 < p.1 u then
    (Function.update p.1 u (listMin ((adj u).map p.1) + 1), false)
  else p

/-- One full relaxation round: `no_change` is reset to `True`, then every
vertex of the vertex list is relaxed in order (the code mutates the
dictionary in place, so later vertices in the same round see earlier
updates). -/
def relaxRound (adj : V → List V) (verts : List V) (d : V → Nat) :
    (V → Nat) × Bool :=
  verts.foldl (relaxVertex adj) (d, true)

/-- The outer relaxation loop: up to `fuel` rounds, stopping as soon as a
round leaves `no_change` set (`for i in range(len(Pverts)): if no_change:
break; ...`). -/
def relaxLoop (adj : V → List V) (verts : List V) : Nat → (V → Nat) → V → Nat
  | 0, d => d
  | fuel + 1, d =>
    if (relaxRound adj verts d).2 then (relaxRound adj verts d).1
    else relaxLoop adj verts fuel (relaxRound adj verts d).1

/-- The relaxation loop instrumented with the number of rounds actually
executed. -/
def relaxLoopC (adj : V → List V) (verts : List V) :
    Nat → (V → Nat) → (V → Nat) × Nat
  | 0, d => (d, 0)
  | fuel + 1, d =>
    if (relaxRound adj verts d).2 then ((relaxRound adj verts d).1, 1)
    else ((relaxLoopC adj verts fuel (relaxRound adj verts d).1).1,
      (relaxLoopC adj verts fuel (relaxRound adj verts d).1).2 + 1)

/-- Iteration of relaxation rounds without the early-exit check:
`relaxIter j d` is the distance map after exactly `j` rounds. -/
def relaxIter (adj : V → List V) (verts : List V) : Nat → (V → Nat) → V → Nat
  | 0, d => d
  | j + 1, d => (relaxRound adj verts (relaxIter adj verts j d)).1

/-- The initial distance map: every vertex at the naive upper bound
`num_verts`, then the sink reset to 0. -/
def distInit (n : Nat) (snk : V) : V → Nat :=
  Function.update (fun _ => n) snk 0

/-- The final distance map produced by the code for a directed graph with
designated sink: `verts.length` rounds of relaxation from the initial map. -/
def distances_final (adj : V → List V) (verts : List V) (snk : V) : V → Nat :=
  relaxLoop adj verts verts.length (distInit verts.length snk)

/-- `ReachesIn adj k u w` holds when there is a directed walk of length at
most `k` from `u` to `w` along the out-neighbor lists. -/
def ReachesIn (adj : V → List V) : Nat → V → V → Prop
  | 0, u, w => u = w
  | k + 1, u, w => u = w ∨ ∃ v ∈ adj u, ReachesIn adj k v w

/-- One round of the reference breadth-first search from the sink over the
reverse graph: at timestamp `t`, every still-unassigned listed vertex with
an already-assigned out-neighbor (i.e. a reverse-graph neighbor of the
current frontier) receives distance `t`. -/
def bfsRound (adj : V → List V) (verts : List V) (t : Nat)
    (m : V → Option Nat) : V → Option Nat :=
  fun u =>
    if u ∈ verts ∧ m u = none ∧ (adj u).any (fun v => (m v).isSome) then some t
    else m u

/-- The breadth-first search layers: `bfsIter t` is the assignment after
rounds `1, …, t`, starting from the sink at distance 0. -/
def bfsIter (adj : V → List V) (verts : List V) (snk : V) :
    Nat → V → Option Nat
  | 0 => fun u => if u = snk then some 0 else none
  | t + 1 => bfsRound adj verts (t + 1) (bfsIter adj verts snk t)

/-- The reference breadth-first search distance map from the sink over the
reverse graph: `verts.length` rounds of frontier expansion. -/
def bfs (adj : V → List V) (verts : List V) (snk : V) : V → Option Nat :=
  bfsIter adj verts snk verts.length

end Relax

/-- The directed diameter of one orientation: the sink is computed by the
linear scan, the directed graph is built from the orientation vector, the
distances are relaxed, and the maximum distance over the vertex list is
taken. -/
def oridiam (f : Vec) (verts : List Vec) (nbrs : Vec → List Vec) : Nat :=
  listMax (verts.map (distances_final (dir_neighbors f nbrs) verts (sink f verts)))

/-- The aggregation of the per-orientation diameters: a running value
starting at 0, replaced whenever an orientation's diameter exceeds it
(`if oridiam > monodiam: monodiam = oridiam`). -/
def monodiam (fs : List Vec) (verts : List Vec) (nbrs : Vec → List Vec) : Nat :=
  fs.foldl
    (fun m f => if m < oridiam f verts nbrs then oridiam f verts nbrs else m) 0

/-- A three-vertex directed path `2 → 1 → 0` over natural-number vertex
ids, used as a concrete acyclic unique-sink graph. -/
def pathAdj : Nat → List Nat
  | 1 => [0]
  | 2 => [1]
  | _ => []

/-- The two-vertex segment `{[0], [1]}` with its symmetric adjacency, used
as a concrete polytope graph. -/
def pairNbrs : Vec → List Vec :=
  fun u => if u = [0] then [[1]] else if u = [1] then [[0]] else []

/-! ### Basic vector lemmas -/

theorem dot_nil_left (w : Vec) : dot [] w = 0 := rfl

theorem dot_nil_right (f : Vec) : dot f [] = 0 := by
  simp [dot]

theorem dot_cons (a : ℚ) (f : Vec) (x : ℚ) (w : Vec) :
    dot (a :: f) (x :: w) = a * x + dot f w := by
  simp [dot]

theorem vsub_cons (x : ℚ) (u : Vec) (y : ℚ) (v : Vec) :
    vsub (x :: u) (y :: v) = (x - y) :: vsub u v := rfl

theorem vneg_vneg (w : Vec) : vneg (vneg w) = w := by
  simp [vneg, Function.comp]

theorem vsub_eq_vneg (u : Vec) : ∀ v : Vec, vsub u v = vneg (vsub v u) := by
  induction u with
  | nil => intro v; cases v <;> simp [vsub, vneg]
  | cons x u' ih =>
    intro v
    cases v with
    | nil => simp [vsub, vneg]
    | cons y v' => simp [vsub_cons, vneg, ih v', neg_sub]

theorem dot_vneg (f : Vec) : ∀ w : Vec, dot f (vneg w) = -dot f w := by
  induction f with
  | nil => intro w; simp [dot_nil_left]
  | cons a f' ih =>
    intro w
    cases w with
    | nil => simp [vneg, dot_nil_right]
    | cons x w' =>
      have hx : vneg (x :: w') = (-x) :: vneg w' := rfl
      rw [hx, dot_cons, dot_cons, ih w']
      ring

theorem dot_vsub_neg (f u v : Vec) : dot f (vsub u v) = -dot f (vsub v u) := by
  rw [vsub_eq_vneg, dot_vneg]

theorem dot_vsub (f : Vec) : ∀ u v : Vec, u.length = v.length →
    dot f (vsub u v) = dot f u - dot f v := by
  induction f with
  | nil => intro u v _; simp [dot_nil_left]
  | cons a f' ih =>
    intro u v h
    cases u with
    | nil =>
      have hv : v = [] := List.length_eq_zero.mp h.symm
      subst hv; simp [vsub, dot_nil_right]
    | cons x u' =>
      cases v with
      | nil => simp at h
      | cons y v' =>
        have h' : u'.length = v'.length := by simpa using h
        rw [vsub_cons, dot_cons, dot_cons, dot_cons, ih u' v' h']
        ring

/-! ### Sink scan lemmas -/

theorem scanStep_left_le (f c w : Vec) : dot f c ≤ dot f (scanStep f c w) := by
  unfold scanStep
  by_cases h : dot f c < dot f w
  · simp [h]; exact le_of_lt h
  · simp [h]

theorem scanStep_right_le (f c w : Vec) : dot f w ≤ dot f (scanStep f c w) := by
  unfold scanStep
  by_cases h : dot f c < dot f w
  · simp [h]
  · simp [h]; exact le_of_not_lt h

theorem scanStep_cases (f c w : Vec) : scanStep f c w = c ∨ scanStep f c w = w := by
  unfold scanStep
  by_cases h : dot f c < dot f w
  · right; simp [h]
  · left; simp [h]

theorem scan_foldl_le (f : Vec) :
    ∀ (l : List Vec) (c : Vec), dot f c ≤ dot f (l.foldl (scanStep f) c) := by
  intro l
  induction l with
  | nil => intro c; simp
  | cons w l' ih =>
    intro c
    exact le_trans (scanStep_left_le f c w) (ih (scanStep f c w))

theorem scan_foldl_max (f : Vec) :
    ∀ (l : List Vec) (c : Vec) (v : Vec), v ∈ l →
      dot f v ≤ dot f (l.foldl (scanStep f) c) := by
  intro l
  induction l with
  | nil => intro c v hv; simp at hv
  | cons w l' ih =>
    intro c v hv
    rcases List.mem_cons.mp hv with h | h
    · subst h
      exact le_trans (scanStep_right_le f c v) (scan_foldl_le f l' (scanStep f c v))
    · exact ih (scanStep f c w) v h

theorem scan_foldl_mem (f : Vec) :
    ∀ (l : List Vec) (c : Vec), l.foldl (scanStep f) c = c ∨
      l.foldl (scanStep f) c ∈ l := by
  intro l
  induction l with
  | nil => intro c; left; rfl
  | cons w l' ih =>
    intro c
    rcases scanStep_cases f c w with h | h
    · rcases ih (scanStep f c w) with h' | h'
      · left; rw [List.foldl_cons, h', h]
      · right; exact List.mem_cons_of_mem w h'
    · rcases ih (scanStep f c w) with h' | h'
      · right; rw [List.foldl_cons, h', h]; exact List.mem_cons_self w l'
      · right; exact List.mem_cons_of_mem w h'

theorem sink_mem (f : Vec) (verts : List Vec) (h : verts ≠ []) :
    sink f verts ∈ verts := by
  cases verts with
  | nil => exact absurd rfl h
  | cons v vs =>
    show List.foldl (scanStep f) v (v :: vs) ∈ v :: vs
    rcases scan_foldl_mem f (v :: vs) v with h' | h'
    · rw [h']; exact List.mem_cons_self v vs
    · exact h'

theorem sink_max (f : Vec) (verts : List Vec) (v : Vec) (hv : v ∈ verts) :
    dot f v ≤ dot f (sink f verts) := by
  cases verts with
  | nil => simp at hv
  | cons w vs =>
    show dot f v ≤ dot f (List.foldl (scanStep f) w (w :: vs))
    exact scan_foldl_max f (w :: vs) w v hv

/-! ### List minimum and maximum lemmas -/

theorem foldlMin_le_init : ∀ (l : List Nat) (a : Nat), l.foldl Nat.min a ≤ a := by
  intro l
  induction l with
  | nil => intro a; exact le_refl a
  | cons x xs ih =>
    intro a
    exact le_trans (ih (Nat.min a x)) (Nat.min_le_left a x)

theorem foldlMin_le_mem :
    ∀ (l : List Nat) (a x : Nat), x ∈ l → l.foldl Nat.min a ≤ x := by
  intro l
  induction l with
  | nil => intro a x hx; simp at hx
  | cons y ys ih =>
    intro a x hx
    rcases List.mem_cons.mp hx with h | h
    · subst h
      exact le_trans (foldlMin_le_init ys (Nat.min a x)) (Nat.min_le_right a x)
    · exact ih (Nat.min a y) x h

theorem listMin_le {l : List Nat} {x : Nat} (h : x ∈ l) : listMin l ≤ x := by
  cases l with
  | nil => simp at h
  | cons y ys =>
    rcases List.mem_cons.mp h with h' | h'
    · subst h'; exact foldlMin_le_init ys x
    · exact foldlMin_le_mem ys y x h'

theorem foldlMin_mem :
    ∀ (l : List Nat) (a : Nat), l.foldl Nat.min a = a ∨ l.foldl Nat.min a ∈ l := by
  intro l
  induction l with
  | nil => intro a; left; rfl
  | cons x xs ih =>
    intro a
    rcases ih (Nat.min a x) with h | h
    · by_cases hax : a ≤ x
      · left; rw [List.foldl_cons, h]; exact Nat.min_eq_left hax
      · right
        have hx : Nat.min a x = x := Nat.min_eq_right (le_of_not_le hax)
        rw [List.foldl_cons, h, hx]
        exact List.mem_cons_self x xs
    · right; exact List.mem_cons_of_mem x h

theorem listMin_mem {l : List Nat} (h : l ≠ []) : listMin l ∈ l := by
  cases l with
  | nil => exact absurd rfl h
  | cons y ys =>
    rcases foldlMin_mem ys y with h' | h'
    · rw [listMin, h']; exact List.mem_cons_self y ys
    · rw [listMin]; exact List.mem_cons_of_mem y h'

theorem foldlMax_le :
    ∀ (l : List Nat) (a b : Nat), a ≤ b → (∀ x ∈ l, x ≤ b) → l.foldl Nat.max a ≤ b := by
  intro l
  induction l with
  | nil => intro a b hab _; exact hab
  | cons x xs ih =>
    intro a b hab hl
    refine ih (Nat.max a x) b (Nat.max_le.mpr ⟨hab, hl x (List.mem_cons_self x xs)⟩) ?_
    intro y hy
    exact hl y (List.mem_cons_of_mem x hy)

theorem listMax_le {l : List Nat} {b : Nat} (h : ∀ x ∈ l, x ≤ b) : listMax l ≤ b := by
  cases l with
  | nil => exact Nat.zero_le b
  | cons y ys =>
    exact foldlMax_le ys y b (h y (List.mem_cons_self y ys))
      (fun x hx => h x (List.mem_cons_of_mem y hx))

/-! ### Relaxation monotonicity -/

section RelaxLemmas

variable {V : Type} [DecidableEq V]

theorem relaxVertex_le (adj : V → List V) (p : (V → Nat) × Bool) (u x : V) :
    (relaxVertex adj p u).1 x ≤ p.1 x := by
  unfold relaxVertex
  by_cases h1 : adj u = []
  · rw [if_pos h1]
  · rw [if_neg h1]
    by_cases h2 : listMin ((adj u).map p.1) + 1 < p.1 u
    · rw [if_pos h2]
      dsimp only
      rcases eq_or_ne x u with rfl | hne
      · rw [Function.update_same]
        exact le_of_lt h2
      · rw [Function.update_noteq hne]
    · rw [if_neg h2]

theorem relaxFold_le (adj : V → List V) :
    ∀ (l : List V) (p : (V → Nat) × Bool) (x : V),
      (l.foldl (relaxVertex adj) p).1 x ≤ p.1 x := by
  intro l
  induction l with
  | nil => intro p x; exact le_refl _
  | cons u l' ih =>
    intro p x
    exact le_trans (ih (relaxVertex adj p u) x) (relaxVertex_le adj p u x)

theorem relaxRound_le (adj : V → List V) (verts : List V) (d : V → Nat) (x : V) :
    (relaxRound adj verts d).1 x ≤ d x :=
  relaxFold_le adj verts (d, true) x

theorem relaxLoop_le (adj : V → List V) (verts : List V) :
    ∀ (fuel : Nat) (d : V → Nat) (x : V), relaxLoop adj verts fuel d x ≤ d x := by
  intro fuel
  induction fuel with
  | zero => intro d x; exact le_refl _
  | succ k ih =>
    intro d x
    unfold relaxLoop
    by_cases h : (relaxRound adj verts d).2
    · rw [if_pos h]; exact relaxRound_le adj verts d x
    · rw [if_neg h]
      exact le_trans (ih (relaxRound adj verts d).1 x) (relaxRound_le adj verts d x)

theorem relaxIter_le (adj : V → List V) (verts : List V) :
    ∀ (j : Nat) (d : V → Nat) (x : V), relaxIter adj verts j d x ≤ d x := by
  intro j
  induction j with
  | zero => intro d x; exact le_refl _
  | succ k ih =>
    intro d x
    exact le_trans (relaxRound_le adj verts (relaxIter adj verts k d) x) (ih d x)

/-! ### The one-vertex relaxation equation and the upper-bound step -/

theorem relaxVertex_self (adj : V → List V) (p : (V → Nat) × Bool) (u : V)
    (h : adj u ≠ []) :
    (relaxVertex adj p u).1 u =
      Nat.min (p.1 u) (listMin ((adj u).map p.1) + 1) := by
  unfold relaxVertex
  rw [if_neg h]
  by_cases h2 : listMin ((adj u).map p.1) + 1 < p.1 u
  · rw [if_pos h2]
    dsimp only
    rw [Function.update_same]
    exact (Nat.min_eq_right (le_of_lt h2)).symm
  · rw [if_neg h2]
    exact (Nat.min_eq_left (le_of_not_lt h2)).symm

theorem relaxVertex_ub (adj : V → List V) (p : (V → Nat) × Bool) (u v : V)
    (hv : v ∈ adj u) :
    (relaxVertex adj p u).1 u ≤ p.1 v + 1 := by
  have hne : adj u ≠ [] := List.ne_nil_of_mem hv
  rw [relaxVertex_self adj p u hne]
  have hmin : listMin ((adj u).map p.1) ≤ p.1 v :=
    listMin_le (List.mem_map_of_mem p.1 hv)
  exact le_trans (Nat.min_le_right _ _) (Nat.add_le_add_right hmin 1)

theorem relaxFold_ub (adj : V → List V) :
    ∀ (l : List V) (p : (V → Nat) × Bool) (u v : V), u ∈ l → v ∈ adj u →
      (l.foldl (relaxVertex adj) p).1 u ≤ p.1 v + 1 := by
  intro l
  induction l with
  | nil => intro p u v hu _; simp at hu
  | cons w l' ih =>
    intro p u v hu hv
    rcases List.mem_cons.mp hu with h | h
    · subst h
      calc (l'.foldl (relaxVertex adj) (relaxVertex adj p u)).1 u
          ≤ (relaxVertex adj p u).1 u := relaxFold_le adj l' (relaxVertex adj p u) u
        _ ≤ p.1 v + 1 := relaxVertex_ub adj p u v hv
    · calc (l'.foldl (relaxVertex adj) (relaxVertex adj p w)).1 u
          ≤ (relaxVertex adj p w).1 v + 1 := ih (relaxVertex adj p w) u v h hv
        _ ≤ p.1 v + 1 := Nat.add_le_add_right (relaxVertex_le adj p w v) 1

theorem relaxRound_ub (adj : V → List V) (verts : List V) (d : V → Nat)
    (u v : V) (hu : u ∈ verts) (hv : v ∈ adj u) :
    (relaxRound adj verts d).1 u ≤ d v + 1 :=
  relaxFold_ub adj verts (d, true) u v hu hv

/-! ### The no-change flag -/

theorem relaxVertex_flag (adj : V → List V) (p : (V → Nat) × Bool) (u : V)
    (h : (relaxVertex adj p u).2 = true) : relaxVertex adj p u = p := by
  unfold relaxVertex at h ⊢
  by_cases h1 : adj u = []
  · rw [if_pos h1]
  · rw [if_neg h1]
    by_cases h2 : listMin ((adj u).map p.1) + 1 < p.1 u
    · rw [if_neg h1, if_pos h2] at h
      simp at h
    · rw [if_neg h2]

theorem relaxFold_flag (adj : V → List V) :
    ∀ (l : List V) (p : (V → Nat) × Bool),
      (l.foldl (relaxVertex adj) p).2 = true → l.foldl (relaxVertex adj) p = p := by
  intro l
  induction l with
  | nil => intro p _; rfl
  | cons u l' ih =>
    intro p h
    rw [List.foldl_cons] at h ⊢
    have h1 : l'.foldl (relaxVertex adj) (relaxVertex adj p u) = relaxVertex adj p u :=
      ih (relaxVertex adj p u) h
    rw [h1] at h ⊢
    exact relaxVertex_flag adj p u h

theorem relaxRound_nochange (adj : V → List V) (verts : List V) (d : V → Nat)
    (h : (relaxRound adj verts d).2 = true) : (relaxRound adj verts d).1 = d := by
  have := relaxFold_flag adj verts (d, true) h
  rw [relaxRound, this]

end RelaxLemmas

/-! ### Bounded reachability -/

section ReachLemmas

variable {V : Type}

theorem reachesIn_zero_iff (adj : V → List V) (u w : V) :
    ReachesIn adj 0 u w ↔ u = w := Iff.rfl

theorem reachesIn_succ_iff (adj : V → List V) (k : Nat) (u w : V) :
    ReachesIn adj (k + 1) u w ↔ u = w ∨ ∃ v ∈ adj u, ReachesIn adj k v w :=
  Iff.rfl

theorem reachesIn_refl (adj : V → List V) (u : V) : ∀ k, ReachesIn adj k u u := by
  intro k
  cases k with
  | zero => exact rfl
  | succ n => exact Or.inl rfl

theorem reachesIn_mono (adj : V → List V) :
    ∀ (k k' : Nat), k ≤ k' → ∀ (u w : V), ReachesIn adj k u w →
      ReachesIn adj k' u w := by
  intro k
  induction k with
  | zero =>
    intro k' _ u w h
    have he : u = w := h
    subst he
    exact reachesIn_refl adj u k'
  | succ n ih =>
    intro k' hk u w h
    cases k' with
    | zero => omega
    | succ m =>
      rcases (reachesIn_succ_iff adj n u w).mp h with he | ⟨v, hv, hr⟩
      · subst he; exact reachesIn_refl adj u (m + 1)
      · exact (reachesIn_succ_iff adj m u w).mpr
          (Or.inr ⟨v, hv, ih m (by omega) v w hr⟩)

theorem reachesIn_of_measure (adj : V → List V) (verts : List V) (snk : V)
    (μ : V → Nat)
    (hstep : ∀ w, w ∈ verts → w ≠ snk → ∃ v ∈ adj w, v ∈ verts ∧ μ v < μ w) :
    ∀ (k : Nat) (u : V), u ∈ verts → μ u ≤ k → ReachesIn adj k u snk := by
  intro k
  induction k with
  | zero =>
    intro u hu hμ
    by_cases h : u = snk
    · rw [h]; exact reachesIn_refl adj snk 0
    · rcases hstep u hu h with ⟨v, _, _, hlt⟩
      omega
  | succ n ih =>
    intro u hu hμ
    by_cases h : u = snk
    · rw [h]; exact reachesIn_refl adj snk (n + 1)
    · rcases hstep u hu h with ⟨v, hv, hvm, hlt⟩
      exact (reachesIn_succ_iff adj n u snk).mpr
        (Or.inr ⟨v, hv, ih v hvm (by omega)⟩)

end ReachLemmas

/-! ### Upper bounds for the relaxation -/

section RelaxUpper

variable {V : Type} [DecidableEq V]

theorem relaxIter_ub (adj : V → List V) (verts : List V) (snk : V) (d : V → Nat)
    (hcl : ∀ u ∈ verts, ∀ v ∈ adj u, v ∈ verts) (hd : d snk = 0) :
    ∀ (j k : Nat) (u : V), u ∈ verts → k ≤ j → ReachesIn adj k u snk →
      relaxIter adj verts j d u ≤ k := by
  intro j
  induction j with
  | zero =>
    intro k u hu hk hr
    have hk0 : k = 0 := Nat.le_zero.mp hk
    subst hk0
    have he : u = snk := hr
    subst he
    exact le_of_eq hd
  | succ n ih =>
    intro k u hu hk hr
    rcases Nat.lt_or_ge k (n + 1) with hlt | hge
    · calc relaxIter adj verts (n + 1) d u
          ≤ relaxIter adj verts n d u := relaxRound_le adj verts _ u
        _ ≤ k := ih k u hu (by omega) hr
    · have hk1 : k = n + 1 := le_antisymm hk hge
      subst hk1
      rcases (reachesIn_succ_iff adj n u snk).mp hr with he | ⟨v, hv, hrv⟩
      · subst he
        calc relaxIter adj verts (n + 1) d u
            ≤ d u := relaxIter_le adj verts (n + 1) d u
          _ = 0 := hd
          _ ≤ n + 1 := Nat.zero_le _
      · have h1 : relaxIter adj verts n d v ≤ n := ih n v (hcl u hu v hv) (le_refl n) hrv
        calc relaxIter adj verts (n + 1) d u
            ≤ relaxIter adj verts n d v + 1 :=
              relaxRound_ub adj verts (relaxIter adj verts n d) u v hu hv
          _ ≤ n + 1 := by omega

theorem relaxLoop_succ (adj : V → List V) (verts : List V) (fuel : Nat)
    (d : V → Nat) :
    relaxLoop adj verts (fuel + 1) d =
      if (relaxRound adj verts d).2 then (relaxRound adj verts d).1
      else relaxLoop adj verts fuel (relaxRound adj verts d).1 := rfl

theorem relaxIter_shift (adj : V → List V) (verts : List V) :
    ∀ (j : Nat) (d : V → Nat),
      relaxIter adj verts j (relaxRound adj verts d).1 =
        relaxIter adj verts (j + 1) d := by
  intro j
  induction j with
  | zero => intro d; rfl
  | succ n ih =>
    intro d
    show (relaxRound adj verts (relaxIter adj verts n (relaxRound adj verts d).1)).1 =
      (relaxRound adj verts (relaxIter adj verts (n + 1) d)).1
    rw [ih d]

theorem relaxLoop_eq_iter (adj : V → List V) (verts : List V) :
    ∀ (fuel : Nat) (d : V → Nat), ∃ j, j ≤ fuel ∧
      relaxLoop adj verts fuel d = relaxIter adj verts j d ∧
      (j < fuel → (relaxRound adj verts (relaxLoop adj verts fuel d)).1 =
        relaxLoop adj verts fuel d) := by
  intro fuel
  induction fuel with
  | zero =>
    intro d
    exact ⟨0, le_refl 0, rfl, fun h => absurd h (lt_irrefl 0)⟩
  | succ n ih =>
    intro d
    by_cases h : (relaxRound adj verts d).2
    · have hres : relaxLoop adj verts (n + 1) d = d := by
        rw [relaxLoop_succ, if_pos h]
        exact relaxRound_nochange adj verts d h
      refine ⟨0, Nat.zero_le _, hres, fun _ => ?_⟩
      rw [hres]
      exact relaxRound_nochange adj verts d h
    · rcases ih (relaxRound adj verts d).1 with ⟨j, hj, heq, hfix⟩
      have hstep : relaxLoop adj verts (n + 1) d =
          relaxLoop adj verts n (relaxRound adj verts d).1 := by
        rw [relaxLoop_succ, if_neg h]
      refine ⟨j + 1, by omega, ?_, ?_⟩
      · rw [hstep, heq, relaxIter_shift]
      · intro hlt
        rw [hstep]
        exact hfix (by omega)

theorem relaxFix_ub (adj : V → List V) (verts : List V) (snk : V) (dd : V → Nat)
    (hcl : ∀ u ∈ verts, ∀ v ∈ adj u, v ∈ verts)
    (hfix : (relaxRound adj verts dd).1 = dd) (hz : dd snk = 0) :
    ∀ (k : Nat) (u : V), u ∈ verts → ReachesIn adj k u snk → dd u ≤ k := by
  intro k
  induction k with
  | zero =>
    intro u hu hr
    have he : u = snk := hr
    subst he
    exact le_of_eq hz
  | succ n ih =>
    intro u hu hr
    rcases (reachesIn_succ_iff adj n u snk).mp hr with he | ⟨v, hv, hrv⟩
    · subst he
      rw [hz]
      exact Nat.zero_le _
    · have h1 : dd v ≤ n := ih v (hcl u hu v hv) hrv
      have h2 : dd u ≤ dd v + 1 := by
        conv_lhs => rw [← hfix]
        exact relaxRound_ub adj verts dd u v hu hv
      omega

theorem distInit_self {n : Nat} (snk : V) : distInit n snk snk = 0 :=
  Function.update_same snk 0 (fun _ => n)

theorem distInit_other {n : Nat} {snk x : V} (h : x ≠ snk) :
    distInit n snk x = n :=
  Function.update_noteq h 0 (fun _ => n)

theorem relaxLoop_snk (adj : V → List V) (verts : List V) (snk : V)
    (fuel n : Nat) : relaxLoop adj verts fuel (distInit n snk) snk = 0 :=
  Nat.le_zero.mp
    (le_trans (relaxLoop_le adj verts fuel (distInit n snk) snk)
      (le_of_eq (distInit_self snk)))

theorem distances_final_ub (adj : V → List V) (verts : List V) (snk : V)
    (hcl : ∀ u ∈ verts, ∀ v ∈ adj u, v ∈ verts)
    (hreach : ∀ u ∈ verts, ReachesIn adj (verts.length - 1) u snk) :
    ∀ u ∈ verts, distances_final adj verts snk u ≤ verts.length - 1 ∧
      ∀ k, ReachesIn adj k u snk → distances_final adj verts snk u ≤ k := by
  intro u hu
  have hlen : 1 ≤ verts.length := List.length_pos.mpr (List.ne_nil_of_mem hu)
  rcases relaxLoop_eq_iter adj verts verts.length (distInit verts.length snk)
    with ⟨j, hj, heq, hfix⟩
  rcases Nat.lt_or_ge j verts.length with hlt | hge
  · have hz : relaxLoop adj verts verts.length (distInit verts.length snk) snk = 0 :=
      relaxLoop_snk adj verts snk verts.length verts.length
    have hub := relaxFix_ub adj verts snk
      (relaxLoop adj verts verts.length (distInit verts.length snk))
      hcl (hfix hlt) hz
    exact ⟨hub (verts.length - 1) u hu (hreach u hu),
      fun k hk => hub k u hu hk⟩
  · have hjN : j = verts.length := le_antisymm hj hge
    subst hjN
    have hub : ∀ k, k ≤ verts.length → ReachesIn adj k u snk →
        distances_final adj verts snk u ≤ k := by
      intro k hk hr
      unfold distances_final
      rw [heq]
      exact relaxIter_ub adj verts snk (distInit verts.length snk) hcl
        (distInit_self snk) verts.length k u hu hk hr
    have hN1 : distances_final adj verts snk u ≤ verts.length - 1 :=
      hub (verts.length - 1) (by omega) (hreach u hu)
    refine ⟨hN1, fun k hk => ?_⟩
    rcases Nat.lt_or_ge k verts.length with hk' | hk'
    · exact hub k (by omega) hk
    · omega

end RelaxUpper

/-! ### Lower bound invariant for the relaxation -/

section RelaxLower

variable {V : Type} [DecidableEq V]

theorem relaxVertex_inv (adj : V → List V) (snk : V) (n : Nat)
    (p : (V → Nat) × Bool) (u : V)
    (h : ∀ x, ReachesIn adj (p.1 x) x snk ∨ n ≤ p.1 x) :
    ∀ x, ReachesIn adj ((relaxVertex adj p u).1 x) x snk ∨
      n ≤ (relaxVertex adj p u).1 x := by
  intro x
  unfold relaxVertex
  by_cases h1 : adj u = []
  · rw [if_pos h1]; exact h x
  · rw [if_neg h1]
    by_cases h2 : listMin ((adj u).map p.1) + 1 < p.1 u
    · rw [if_pos h2]
      dsimp only
      rcases eq_or_ne x u with rfl | hne
      · rw [Function.update_same]
        have hmapne : (adj x).map p.1 ≠ [] := by
          intro hcon
          exact h1 (List.map_eq_nil_iff.mp hcon)
        have hmem : listMin ((adj x).map p.1) ∈ (adj x).map p.1 :=
          listMin_mem hmapne
        rcases List.mem_map.mp hmem with ⟨v, hv, hval⟩
        rcases h v with hr | hn
        · left
          refine (reachesIn_succ_iff adj _ x snk).mpr (Or.inr ⟨v, hv, ?_⟩)
          rw [hval] at hr
          exact hr
        · right
          omega
      · rw [Function.update_noteq hne]
        exact h x
    · rw [if_neg h2]; exact h x

theorem relaxFold_inv (adj : V → List V) (snk : V) (n : Nat) :
    ∀ (l : List V) (p : (V → Nat) × Bool),
      (∀ x, ReachesIn adj (p.1 x) x snk ∨ n ≤ p.1 x) →
      ∀ x, ReachesIn adj ((l.foldl (relaxVertex adj) p).1 x) x snk ∨
        n ≤ (l.foldl (relaxVertex adj) p).1 x := by
  intro l
  induction l with
  | nil => intro p h; exact h
  | cons u l' ih =>
    intro p h
    exact ih (relaxVertex adj p u) (relaxVertex_inv adj snk n p u h)

theorem relaxLoop_inv (adj : V → List V) (verts : List V) (snk : V) (n : Nat) :
    ∀ (fuel : Nat) (d : V → Nat),
      (∀ x, ReachesIn adj (d x) x snk ∨ n ≤ d x) →
      ∀ x, ReachesIn adj (relaxLoop adj verts fuel d x) x snk ∨
        n ≤ relaxLoop adj verts fuel d x := by
  intro fuel
  induction fuel with
  | zero => intro d h; exact h
  | succ m ih =>
    intro d h
    rw [relaxLoop_succ]
    by_cases hb : (relaxRound adj verts d).2
    · rw [if_pos hb]
      exact relaxFold_inv adj snk n verts (d, true) h
    · rw [if_neg hb]
      exact ih (relaxRound adj verts d).1
        (relaxFold_inv adj snk n verts (d, true) h)

theorem distInit_inv (adj : V → List V) (snk : V) (n : Nat) :
    ∀ x, ReachesIn adj (distInit n snk x) x snk ∨ n ≤ distInit n snk x := by
  intro x
  rcases eq_or_ne x snk with rfl | hne
  · left
    rw [distInit_self]
    exact reachesIn_refl adj x 0
  · right
    rw [distInit_other hne]

theorem distances_final_lb (adj : V → List V) (verts : List V) (snk : V)
    (u : V) (hu : distances_final adj verts snk u < verts.length) :
    ReachesIn adj (distances_final adj verts snk u) u snk := by
  rcases relaxLoop_inv adj verts snk verts.length verts.length
    (distInit verts.length snk) (distInit_inv adj snk verts.length) u with h | h
  · exact h
  · exact absurd hu (not_lt.mpr h)

end RelaxLower

/-! ### Reference breadth-first search lemmas -/

section BfsLemmas

variable {V : Type} [DecidableEq V]

theorem bfsIter_succ (adj : V → List V) (verts : List V) (snk : V) (t : Nat) :
    bfsIter adj verts snk (t + 1) =
      bfsRound adj verts (t + 1) (bfsIter adj verts snk t) := rfl

theorem bfsRound_of_some (adj : V → List V) (verts : List V) (t : Nat)
    (m : V → Option Nat) (u : V) (j : Nat) (h : m u = some j) :
    bfsRound adj verts t m u = some j := by
  unfold bfsRound
  by_cases hc : u ∈ verts ∧ m u = none ∧
      ((adj u).any fun v => (m v).isSome) = true
  · rw [h] at hc
    simp at hc
  · rw [if_neg hc]
    exact h

theorem bfsIter_persist (adj : V → List V) (verts : List V) (snk : V) :
    ∀ (t' t : Nat), t ≤ t' → ∀ (u : V) (j : Nat),
      bfsIter adj verts snk t u = some j →
      bfsIter adj verts snk t' u = some j := by
  intro t'
  induction t' with
  | zero =>
    intro t ht u j hj
    have h0 : t = 0 := Nat.le_zero.mp ht
    rw [h0] at hj
    exact hj
  | succ m ih =>
    intro t ht u j hj
    rcases Nat.lt_or_ge t (m + 1) with hlt | hge
    · rw [bfsIter_succ]
      exact bfsRound_of_some adj verts (m + 1) _ u j (ih t (by omega) u j hj)
    · have he : t = m + 1 := by omega
      rw [he] at hj
      exact hj

theorem bfsIter_val_le (adj : V → List V) (verts : List V) (snk : V) :
    ∀ (t : Nat) (u : V) (j : Nat), bfsIter adj verts snk t u = some j → j ≤ t := by
  intro t
  induction t with
  | zero =>
    intro u j hj
    unfold bfsIter at hj
    by_cases h : u = snk
    · rw [if_pos h] at hj
      exact le_of_eq (Option.some.inj hj).symm
    · rw [if_neg h] at hj
      cases hj
  | succ m ih =>
    intro u j hj
    rw [bfsIter_succ] at hj
    unfold bfsRound at hj
    by_cases hc : u ∈ verts ∧ bfsIter adj verts snk m u = none ∧
        ((adj u).any fun v => (bfsIter adj verts snk m v).isSome) = true
    · rw [if_pos hc] at hj
      have : m + 1 = j := Option.some.inj hj
      omega
    · rw [if_neg hc] at hj
      exact le_trans (ih u j hj) (Nat.le_succ m)

theorem bfsIter_snk (adj : V → List V) (verts : List V) (snk : V) :
    ∀ (t : Nat), bfsIter adj verts snk t snk = some 0 := by
  intro t
  induction t with
  | zero =>
    unfold bfsIter
    rw [if_pos rfl]
  | succ m ih =>
    rw [bfsIter_succ]
    exact bfsRound_of_some adj verts (m + 1) _ snk 0 ih

theorem bfsIter_sound (adj : V → List V) (verts : List V) (snk : V) :
    ∀ (t : Nat) (u : V) (j : Nat), bfsIter adj verts snk t u = some j →
      ReachesIn adj j u snk := by
  intro t
  induction t with
  | zero =>
    intro u j hj
    unfold bfsIter at hj
    by_cases h : u = snk
    · rw [if_pos h] at hj
      have h0 : 0 = j := Option.some.inj hj
      rw [← h0, h]
      exact reachesIn_refl adj snk 0
    · rw [if_neg h] at hj
      cases hj
  | succ m ih =>
    intro u j hj
    rw [bfsIter_succ] at hj
    unfold bfsRound at hj
    by_cases hc : u ∈ verts ∧ bfsIter adj verts snk m u = none ∧
        ((adj u).any fun v => (bfsIter adj verts snk m v).isSome) = true
    · rw [if_pos hc] at hj
      have hje : m + 1 = j := Option.some.inj hj
      obtain ⟨v, hv, hsome⟩ := List.any_eq_true.mp hc.2.2
      obtain ⟨i, hi⟩ := Option.isSome_iff_exists.mp hsome
      have hri : ReachesIn adj i v snk := ih v i hi
      have hit : i ≤ m := bfsIter_val_le adj verts snk m v i hi
      rw [← hje]
      exact (reachesIn_succ_iff adj m u snk).mpr
        (Or.inr ⟨v, hv, reachesIn_mono adj i m hit v snk hri⟩)
    · rw [if_neg hc] at hj
      exact reachesIn_mono adj j j (le_refl j) u snk (ih u j hj)

theorem bfsIter_complete (adj : V → List V) (verts : List V) (snk : V)
    (hcl : ∀ u ∈ verts, ∀ v ∈ adj u, v ∈ verts) :
    ∀ (t : Nat) (u : V), u ∈ verts → ReachesIn adj t u snk →
      ∃ j, j ≤ t ∧ bfsIter adj verts snk t u = some j := by
  intro t
  induction t with
  | zero =>
    intro u hu hr
    have he : u = snk := hr
    rw [he]
    exact ⟨0, le_refl 0, bfsIter_snk adj verts snk 0⟩
  | succ m ih =>
    intro u hu hr
    rcases (reachesIn_succ_iff adj m u snk).mp hr with he | ⟨v, hv, hrv⟩
    · rw [he]
      exact ⟨0, Nat.zero_le _, bfsIter_snk adj verts snk (m + 1)⟩
    · obtain ⟨i, hit, hi⟩ := ih v (hcl u hu v hv) hrv
      cases hmu : bfsIter adj verts snk m u with
      | some j' =>
        refine ⟨j', le_trans (bfsIter_val_le adj verts snk m u j' hmu) (Nat.le_succ m), ?_⟩
        rw [bfsIter_succ]
        exact bfsRound_of_some adj verts (m + 1) _ u j' hmu
      | none =>
        refine ⟨m + 1, le_refl _, ?_⟩
        rw [bfsIter_succ]
        unfold bfsRound
        rw [if_pos ?_]
        refine ⟨hu, hmu, List.any_eq_true.mpr ⟨v, hv, ?_⟩⟩
        rw [hi]
        rfl

theorem bfs_correct (adj : V → List V) (verts : List V) (snk : V)
    (hcl : ∀ u ∈ verts, ∀ v ∈ adj u, v ∈ verts)
    (hreach : ∀ u ∈ verts, ReachesIn adj (verts.length - 1) u snk) :
    ∀ u ∈ verts, ∃ j, bfs adj verts snk u = some j ∧ ReachesIn adj j u snk ∧
      ∀ k, ReachesIn adj k u snk → j ≤ k := by
  intro u hu
  have hrN : ReachesIn adj verts.length u snk :=
    reachesIn_mono adj (verts.length - 1) verts.length (by omega) u snk
      (hreach u hu)
  obtain ⟨j, hjle, hj⟩ := bfsIter_complete adj verts snk hcl verts.length u hu hrN
  refine ⟨j, hj, bfsIter_sound adj verts snk verts.length u j hj, ?_⟩
  intro k hk
  rcases Nat.lt_or_ge k verts.length with hlt | hge
  · obtain ⟨i, hile, hi⟩ := bfsIter_complete adj verts snk hcl k u hu hk
    have hpers : bfsIter adj verts snk verts.length u = some i :=
      bfsIter_persist adj verts snk verts.length k (by omega) u i hi
    have : i = j := by
      rw [hj] at hpers
      exact (Option.some.inj hpers).symm
    omega
  · omega

end BfsLemmas

/-! ### Reachability of the sink in a finite acyclic unique-sink graph -/

section Acyclic

variable {V : Type} [DecidableEq V]

theorem reach_measure_exists (adj : V → List V) (verts : List V) (snk : V)
    (hcl : ∀ u ∈ verts, ∀ v ∈ adj u, v ∈ verts)
    (hacyc : ∀ u ∈ verts, ¬ Relation.TransGen (fun a b => b ∈ adj a) u u)
    (huniq : ∀ u ∈ verts, adj u = [] → u = snk) :
    ∀ u ∈ verts, ReachesIn adj (verts.length - 1) u snk := by
  classical
  intro u hu
  apply reachesIn_of_measure adj verts snk
    (fun a => (verts.toFinset.filter (fun w =>
      Relation.TransGen (fun a b => b ∈ adj a) a w)).card) ?_ (verts.length - 1)
    u hu ?_
  · intro w hw hwne
    have hne : adj w ≠ [] := fun hnil => hwne (huniq w hw hnil)
    obtain ⟨v, hv⟩ : ∃ v, v ∈ adj w := List.exists_mem_of_ne_nil (adj w) hne
    refine ⟨v, hv, hcl w hw v hv, ?_⟩
    apply Finset.card_lt_card
    rw [Finset.ssubset_def]
    constructor
    · intro x hx
      simp only [Finset.mem_filter] at hx ⊢
      exact ⟨hx.1, Relation.TransGen.head hv hx.2⟩
    · intro hsub
      have hvw : v ∈ verts.toFinset.filter (fun x =>
          Relation.TransGen (fun a b => b ∈ adj a) w x) := by
        simp only [Finset.mem_filter, List.mem_toFinset]
        exact ⟨hcl w hw v hv, Relation.TransGen.single hv⟩
      have hvv := hsub hvw
      simp only [Finset.mem_filter] at hvv
      exact hacyc v (hcl w hw v hv) hvv.2
  · have hsub : verts.toFinset.filter (fun w =>
        Relation.TransGen (fun a b => b ∈ adj a) u w) ⊆ verts.toFinset.erase u := by
      intro x hx
      simp only [Finset.mem_filter] at hx
      rw [Finset.mem_erase]
      refine ⟨?_, hx.1⟩
      intro hxu
      rw [hxu] at hx
      exact hacyc u hu hx.2
    have hcard := Finset.card_le_card hsub
    have herase : (verts.toFinset.erase u).card = verts.toFinset.card - 1 :=
      Finset.card_erase_of_mem (List.mem_toFinset.mpr hu)
    have hlen := verts.toFinset_card_le
    simp only []
    omega

end Acyclic

/-! ### Round-count lemmas for the instrumented loop -/

section LoopCount

variable {V : Type} [DecidableEq V]

theorem relaxLoopC_succ (adj : V → List V) (verts : List V) (fuel : Nat)
    (d : V → Nat) :
    relaxLoopC adj verts (fuel + 1) d =
      if (relaxRound adj verts d).2 then ((relaxRound adj verts d).1, 1)
      else ((relaxLoopC adj verts fuel (relaxRound adj verts d).1).1,
        (relaxLoopC adj verts fuel (relaxRound adj verts d).1).2 + 1) := rfl

theorem relaxLoopC_fst (adj : V → List V) (verts : List V) :
    ∀ (fuel : Nat) (d : V → Nat),
      (relaxLoopC adj verts fuel d).1 = relaxLoop adj verts fuel d := by
  intro fuel
  induction fuel with
  | zero => intro d; rfl
  | succ n ih =>
    intro d
    rw [relaxLoopC_succ, relaxLoop_succ]
    by_cases h : (relaxRound adj verts d).2
    · rw [if_pos h, if_pos h]
    · rw [if_neg h, if_neg h]
      exact ih (relaxRound adj verts d).1

theorem relaxLoopC_count_le (adj : V → List V) (verts : List V) :
    ∀ (fuel : Nat) (d : V → Nat), (relaxLoopC adj verts fuel d).2 ≤ fuel := by
  intro fuel
  induction fuel with
  | zero => intro d; exact le_refl 0
  | succ n ih =>
    intro d
    rw [relaxLoopC_succ]
    by_cases h : (relaxRound adj verts d).2
    · rw [if_pos h]
      omega
    · rw [if_neg h]
      have := ih (relaxRound adj verts d).1
      omega

theorem relaxLoopC_early (adj : V → List V) (verts : List V) (fuel : Nat)
    (d : V → Nat) (h : (relaxRound adj verts d).2 = true) :
    relaxLoopC adj verts (fuel + 1) d = (d, 1) := by
  rw [relaxLoopC_succ, if_pos h, relaxRound_nochange adj verts d h]

theorem relaxLoopC_fix (adj : V → List V) (verts : List V) :
    ∀ (fuel : Nat) (d : V → Nat), (relaxLoopC adj verts fuel d).2 < fuel →
      (relaxRound adj verts (relaxLoopC adj verts fuel d).1).1 =
        (relaxLoopC adj verts fuel d).1 := by
  intro fuel
  induction fuel with
  | zero => intro d h; omega
  | succ n ih =>
    intro d h
    by_cases hb : (relaxRound adj verts d).2
    · rw [relaxLoopC_succ, if_pos hb]
      have hd : (relaxRound adj verts d).1 = d := relaxRound_nochange adj verts d hb
      dsimp only
      rw [hd, hd]
    · rw [relaxLoopC_succ, if_neg hb] at h ⊢
      dsimp only at h ⊢
      exact ih (relaxRound adj verts d).1 (by omega)

end LoopCount

/-! ### Parallelism classes and the deduplication fold -/

theorem mem_classPair_self (d : Vec) : d ∈ classPair d := by
  simp [classPair]

theorem classPair_vneg (d : Vec) : classPair (vneg d) = classPair d := by
  unfold classPair
  rw [vneg_vneg]
  exact Finset.pair_comm (vneg d) d

theorem classPair_eq_iff (x d : Vec) :
    classPair x = classPair d ↔ x = d ∨ x = vneg d := by
  constructor
  · intro h
    have hx : x ∈ classPair d := h ▸ mem_classPair_self x
    simpa [classPair] using hx
  · intro h
    rcases h with rfl | rfl
    · rfl
    · exact classPair_vneg d

theorem insertDir_mem_iff (acc : List Vec) (d : Vec) :
    (d ∈ acc ∨ vneg d ∈ acc) ↔ classPair d ∈ acc.map classPair := by
  constructor
  · intro h
    rcases h with h | h
    · exact List.mem_map_of_mem classPair h
    · rw [← classPair_vneg d]
      exact List.mem_map_of_mem classPair h
  · intro h
    rcases List.mem_map.mp h with ⟨x, hx, he⟩
    rcases (classPair_eq_iff x d).mp he with rfl | he2
    · exact Or.inl hx
    · rw [he2] at hx
      exact Or.inr hx

theorem insertDir_pos (acc : List Vec) (d : Vec) (h : d ∈ acc ∨ vneg d ∈ acc) :
    insertDir acc d = acc := if_pos h

theorem insertDir_neg (acc : List Vec) (d : Vec)
    (h : ¬(d ∈ acc ∨ vneg d ∈ acc)) : insertDir acc d = acc ++ [d] := if_neg h

theorem dedupFold_inv : ∀ (ds acc : List Vec), (acc.map classPair).Nodup →
    ((ds.foldl insertDir acc).map classPair).Nodup ∧
    (∀ e : Finset Vec, e ∈ (ds.foldl insertDir acc).map classPair ↔
      e ∈ acc.map classPair ∨ e ∈ ds.map classPair) := by
  intro ds
  induction ds with
  | nil =>
    intro acc h
    exact ⟨h, fun e => by simp⟩
  | cons d ds' ih =>
    intro acc h
    rw [List.foldl_cons]
    by_cases hc : d ∈ acc ∨ vneg d ∈ acc
    · rw [insertDir_pos acc d hc]
      obtain ⟨h1, h2⟩ := ih acc h
      refine ⟨h1, fun e => ?_⟩
      rw [h2 e]
      simp only [List.map_cons, List.mem_cons]
      constructor
      · rintro (he | he)
        · exact Or.inl he
        · exact Or.inr (Or.inr he)
      · rintro (he | he | he)
        · exact Or.inl he
        · exact Or.inl (he ▸ (insertDir_mem_iff acc d).mp hc)
        · exact Or.inr he
    · rw [insertDir_neg acc d hc]
      have hnotin : classPair d ∉ acc.map classPair :=
        fun hmem => hc ((insertDir_mem_iff acc d).mpr hmem)
      have hnodup : ((acc ++ [d]).map classPair).Nodup := by
        rw [List.map_append, List.nodup_append]
        refine ⟨h, List.nodup_singleton (classPair d), ?_⟩
        intro a ha hb
        rw [List.map_singleton, List.mem_singleton] at hb
        rw [hb] at ha
        exact hnotin ha
      obtain ⟨h1, h2⟩ := ih (acc ++ [d]) hnodup
      refine ⟨h1, fun e => ?_⟩
      rw [h2 e, List.map_append]
      simp only [List.mem_append, List.map_singleton, List.mem_singleton,
        List.map_cons, List.mem_cons]
      tauto

theorem filter_class_length_one :
    ∀ (l : List Vec) (d : Vec), (l.map classPair).Nodup →
      classPair d ∈ l.map classPair →
      (l.filter (fun x => x = d ∨ x = vneg d)).length = 1 := by
  intro l
  induction l with
  | nil =>
    intro d _ h
    simp at h
  | cons x l' ih =>
    intro d hnodup hmem
    rw [List.map_cons, List.nodup_cons] at hnodup
    by_cases hp : x = d ∨ x = vneg d
    · have hcp : classPair x = classPair d := (classPair_eq_iff x d).mpr hp
      have htail : l'.filter (fun y => decide (y = d ∨ y = vneg d)) = [] := by
        rw [List.filter_eq_nil_iff]
        intro a ha hcon
        rw [decide_eq_true_iff] at hcon
        have hacp : classPair a = classPair d := (classPair_eq_iff a d).mpr hcon
        apply hnodup.1
        rw [hcp, ← hacp]
        exact List.mem_map_of_mem classPair ha
      rw [List.filter_cons, if_pos (by rw [decide_eq_true_iff]; exact hp)]
      rw [htail]
      rfl
    · have hcpne : classPair x ≠ classPair d :=
        fun hcp => hp ((classPair_eq_iff x d).mp hcp)
      have hm' : classPair d ∈ l'.map classPair := by
        rw [List.map_cons, List.mem_cons] at hmem
        rcases hmem with he | he
        · exact absurd he.symm hcpne
        · exact he
      rw [List.filter_cons, if_neg (by rw [decide_eq_true_iff]; exact hp)]
      exact ih d hnodup.2 hm'

theorem dedupDirs_classes (ds : List Vec) :
    ((dedupDirs ds).map classPair).toFinset = (ds.map classPair).toFinset := by
  obtain ⟨_, h2⟩ := dedupFold_inv ds [] (by simp)
  unfold dedupDirs
  apply Finset.ext
  intro e
  simp only [List.mem_toFinset]
  rw [h2 e]
  simp

theorem dedupDirs_length (ds : List Vec) :
    (dedupDirs ds).length = ((ds.map classPair).toFinset).card := by
  obtain ⟨h1, _⟩ := dedupFold_inv ds [] (by simp)
  have hlm : (dedupDirs ds).length = ((dedupDirs ds).map classPair).length :=
    (List.length_map _ _).symm
  rw [hlm, ← dedupDirs_classes ds]
  unfold dedupDirs
  rw [← List.toFinset_card_of_nodup h1]

theorem dirList_perm (g g' : List (Vec × List Vec)) (h : List.Perm g g') :
    List.Perm (dirList g) (dirList g') :=
  List.Perm.map _ (List.Perm.flatMap_right _ h)

/-! ### Reaching the scanned sink along improving edges -/

theorem mem_dir_neighbors_iff (f : Vec) (nbrs : Vec → List Vec) (u v : Vec) :
    v ∈ dir_neighbors f nbrs u ↔ v ∈ nbrs u ∧ 0 < dot f (vsub v u) := by
  unfold dir_neighbors
  rw [List.mem_filter, decide_eq_true_iff]

theorem improving_reach (f : Vec) (verts : List Vec) (nbrs : Vec → List Vec)
    (hcl : ∀ u ∈ verts, ∀ v ∈ nbrs u, v ∈ verts)
    (hlen : ∀ u ∈ verts, ∀ v ∈ verts, List.length u = List.length v)
    (himp : ∀ u ∈ verts, u ≠ sink f verts → ∃ v ∈ nbrs u, dot f u < dot f v) :
    ∀ u ∈ verts,
      ReachesIn (dir_neighbors f nbrs) (verts.length - 1) u (sink f verts) := by
  intro u hu
  apply reachesIn_of_measure (dir_neighbors f nbrs) verts (sink f verts)
    (fun a => (verts.toFinset.filter (fun w => dot f a < dot f w)).card) ?_
    (verts.length - 1) u hu ?_
  · intro w hw hwne
    obtain ⟨v, hv, hlt⟩ := himp w hw hwne
    have hvm : v ∈ verts := hcl w hw v hv
    have hdir : v ∈ dir_neighbors f nbrs w := by
      rw [mem_dir_neighbors_iff]
      refine ⟨hv, ?_⟩
      rw [dot_vsub f v w (hlen v hvm w hw)]
      linarith
    refine ⟨v, hdir, hvm, ?_⟩
    apply Finset.card_lt_card
    rw [Finset.ssubset_def]
    constructor
    · intro x hx
      simp only [Finset.mem_filter] at hx ⊢
      exact ⟨hx.1, lt_trans hlt hx.2⟩
    · intro hsub
      have hvmem : v ∈ verts.toFinset.filter (fun x => dot f w < dot f x) := by
        simp only [Finset.mem_filter, List.mem_toFinset]
        exact ⟨hvm, hlt⟩
      have hvv := hsub hvmem
      simp only [Finset.mem_filter] at hvv
      exact lt_irrefl (dot f v) hvv.2
  · have hsub : verts.toFinset.filter (fun w => dot f u < dot f w) ⊆
        verts.toFinset.erase u := by
      intro x hx
      simp only [Finset.mem_filter] at hx
      rw [Finset.mem_erase]
      refine ⟨?_, hx.1⟩
      intro hxu
      rw [hxu] at hx
      exact lt_irrefl (dot f u) hx.2
    have hcard := Finset.card_le_card hsub
    have herase : (verts.toFinset.erase u).card = verts.toFinset.card - 1 :=
      Finset.card_erase_of_mem (List.mem_toFinset.mpr hu)
    have hlenf := verts.toFinset_card_le
    simp only []
    omega

theorem dir_neighbors_closed (f : Vec) (verts : List Vec) (nbrs : Vec → List Vec)
    (hcl : ∀ u ∈ verts, ∀ v ∈ nbrs u, v ∈ verts) :
    ∀ u ∈ verts, ∀ v ∈ dir_neighbors f nbrs u, v ∈ verts := by
  intro u hu v hv
  exact hcl u hu v ((mem_dir_neighbors_iff f nbrs u v).mp hv).1

/-! ### The running-maximum fold and the orientation fold -/

theorem foldl_runmax {α : Type} (g : α → Nat) :
    ∀ (l : List α) (a : Nat),
      a ≤ l.foldl (fun m x => if m < g x then g x else m) a ∧
      (∀ x ∈ l, g x ≤ l.foldl (fun m x => if m < g x then g x else m) a) ∧
      (l.foldl (fun m x => if m < g x then g x else m) a = a ∨
        ∃ x ∈ l, l.foldl (fun m x => if m < g x then g x else m) a = g x) := by
  intro l
  induction l with
  | nil =>
    intro a
    exact ⟨le_refl a, fun x hx => absurd hx (List.not_mem_nil x), Or.inl rfl⟩
  | cons y l' ih =>
    intro a
    rw [List.foldl_cons]
    by_cases h : a < g y
    · rw [if_pos h]
      obtain ⟨h1, h2, h3⟩ := ih (g y)
      refine ⟨le_trans (le_of_lt h) h1, ?_, ?_⟩
      · intro x hx
        rcases List.mem_cons.mp hx with rfl | hx'
        · exact h1
        · exact h2 x hx'
      · rcases h3 with h3 | ⟨x, hx, h3⟩
        · exact Or.inr ⟨y, List.mem_cons_self y l', h3⟩
        · exact Or.inr ⟨x, List.mem_cons_of_mem y hx, h3⟩
    · rw [if_neg h]
      obtain ⟨h1, h2, h3⟩ := ih a
      refine ⟨h1, ?_, ?_⟩
      · intro x hx
        rcases List.mem_cons.mp hx with rfl | hx'
        · exact le_trans (le_of_not_lt h) h1
        · exact h2 x hx'
      · rcases h3 with h3 | ⟨x, hx, h3⟩
        · exact Or.inl h3
        · exact Or.inr ⟨x, List.mem_cons_of_mem y hx, h3⟩

theorem orientation_foldl_eq :
    ∀ (rs : List (List Vec)) (acc : List Vec),
      rs.foldl (fun acc r => acc ++ [vecSum r]) acc = acc ++ rs.map vecSum := by
  intro rs
  induction rs with
  | nil => intro acc; simp
  | cons r rs' ih =>
    intro acc
    rw [List.foldl_cons, ih (acc ++ [vecSum r]), List.map_cons]
    simp

theorem dedupDirs_nodup (ds : List Vec) : ((dedupDirs ds).map classPair).Nodup := by
  unfold dedupDirs
  exact (dedupFold_inv ds [] (by simp)).1

theorem dedupDirs_mem_classes (ds : List Vec) (e : Finset Vec) :
    e ∈ (dedupDirs ds).map classPair ↔ e ∈ ds.map classPair := by
  unfold dedupDirs
  rw [(dedupFold_inv ds [] (by simp)).2 e]
  simp

/-! ### Claim theorems -/

/-- C1: the final reported MonotoneDiameter equals the maximum, over every
enumerated orientation vector, of that orientation's directed diameter,
never the minimum: starting from 0, the running value bounds every
orientation's diameter from above and is either still the initial 0 or
exactly one of the orientation diameters. -/
theorem c1_monodiam_is_max (fs : List Vec) (verts : List Vec)
    (nbrs : Vec → List Vec) :
    (∀ f ∈ fs, oridiam f verts nbrs ≤ monodiam fs verts nbrs) ∧
    (monodiam fs verts nbrs = 0 ∨
      ∃ f ∈ fs, monodiam fs verts nbrs = oridiam f verts nbrs) := by
  obtain ⟨_, h2, h3⟩ := foldl_runmax (fun f => oridiam f verts nbrs) fs 0
  exact ⟨h2, h3⟩

/-- C9: the orientation enumerator produces exactly one orientation vector
per arrangement region, namely the sum of that region's ray generators; the
number of orientation vectors equals the number of regions, which is the
reported integer. -/
theorem c9_one_vector_per_region (regions : List (List Vec)) :
    (orientation_vecs regions).length = region_count regions ∧
    ∀ i : Nat, (orientation_vecs regions)[i]? = (regions[i]?).map vecSum := by
  unfold orientation_vecs region_count
  rw [orientation_foldl_eq regions []]
  simp only [List.nil_append]
  exact ⟨List.length_map regions vecSum, fun i => List.getElem?_map vecSum regions i⟩

/-- C2 (amended): for every orientation vector that is generic on the
vertex set (no two distinct vertices share a functional value), the linear
scan returns the unique maximizer of `f·v`; on a tie input the scan raises
no error and silently returns the first vertex attaining the maximum (see
the counterexample). -/
theorem c2_sink_unique_max (f : Vec) (verts : List Vec) (hne : verts ≠ [])
    (hgen : ∀ u ∈ verts, ∀ v ∈ verts, u ≠ v → dot f u ≠ dot f v) :
    sink f verts ∈ verts ∧
    ∀ v ∈ verts, v ≠ sink f verts → dot f v < dot f (sink f verts) := by
  refine ⟨sink_mem f verts hne, ?_⟩
  intro v hv hvne
  exact lt_of_le_of_ne (sink_max f verts v hv)
    (hgen v hv (sink f verts) (sink_mem f verts hne) hvne)

/-- C2 counterexample: on the tie input `f = (0, 1)` with the two distinct
vertices `(0, 0)` and `(1, 0)` sharing the maximal functional value, the
scan does not fail: it silently returns the first vertex.  The computation
has no error path at all, contradicting the claim that a
`DegenerateFunctionalError` is raised. -/
theorem c2_tie_counterexample :
    dot [0, 1] ([0, 0] : Vec) = dot [0, 1] ([1, 0] : Vec) ∧
    ([0, 0] : Vec) ≠ [1, 0] ∧
    sink [0, 1] [[0, 0], [1, 0]] = [0, 0] := by
  refine ⟨by norm_num [dot], by norm_num, ?_⟩
  norm_num [sink, scanStep, dot]

/-- C6: for a fixed orientation vector `f`, the directed graph contains the
edge `u → v` iff `f·(v − u) > 0`; when the edge carries no tie
(`f·(v − u) ≠ 0`), exactly one of the two directions is present per
undirected edge. -/
theorem c6_edge_orientation (f u v : Vec) (nbrs : Vec → List Vec) :
    (v ∈ dir_neighbors f nbrs u ↔ v ∈ nbrs u ∧ 0 < dot f (vsub v u)) ∧
    (v ∈ nbrs u → u ∈ nbrs v → dot f (vsub v u) ≠ 0 →
      (v ∈ dir_neighbors f nbrs u ↔ ¬ u ∈ dir_neighbors f nbrs v)) := by
  refine ⟨mem_dir_neighbors_iff f nbrs u v, ?_⟩
  intro hvu huv hne
  rw [mem_dir_neighbors_iff, mem_dir_neighbors_iff]
  have hanti : dot f (vsub u v) = -dot f (vsub v u) := dot_vsub_neg f u v
  constructor
  · rintro ⟨_, hpos⟩ ⟨_, hpos'⟩
    rw [hanti] at hpos'
    linarith
  · intro hnot
    refine ⟨hvu, ?_⟩
    by_contra hle
    push_neg at hle
    have hlt : dot f (vsub v u) < 0 := lt_of_le_of_ne hle hne
    exact hnot ⟨huv, by rw [hanti]; linarith⟩

/-- C3: for any acyclic directed graph with a unique sink on `N` vertices,
the distance map produced by the relaxation loop (all distances initialized
to `N`, sink to 0, rounds of minimum relaxation with early exit) equals the
distance map of the reference breadth-first search from the sink over the
reverse graph. -/
theorem c3_relaxation_eq_bfs {V : Type} [DecidableEq V]
    (adj : V → List V) (verts : List V) (snk : V)
    (hsnk : snk ∈ verts) (hout : adj snk = [])
    (hcl : ∀ u ∈ verts, ∀ v ∈ adj u, v ∈ verts)
    (hacyc : ∀ u ∈ verts, ¬ Relation.TransGen (fun a b => b ∈ adj a) u u)
    (huniq : ∀ u ∈ verts, adj u = [] → u = snk) :
    ∀ u ∈ verts, bfs adj verts snk u = some (distances_final adj verts snk u) := by
  intro u hu
  have hreach := reach_measure_exists adj verts snk hcl hacyc huniq
  obtain ⟨j, hbfs, hrj, hmin⟩ := bfs_correct adj verts snk hcl hreach u hu
  obtain ⟨hub1, hub2⟩ := distances_final_ub adj verts snk hcl hreach u hu
  have hlen : 1 ≤ verts.length := List.length_pos.mpr (List.ne_nil_of_mem hu)
  have hlb : ReachesIn adj (distances_final adj verts snk u) u snk :=
    distances_final_lb adj verts snk u (by omega)
  have hj : j = distances_final adj verts snk u :=
    le_antisymm (hmin _ hlb) (hub2 j hrj)
  rw [hbfs, hj]

/-- C5: for every vertex set on which each orientation vector admits an
improving neighbor at every non-sink vertex (the defining property of a
polytope graph directed by a linear functional), the computed
MonotoneDiameter is at most `N − 1`. -/
theorem c5_monodiam_le (fs : List Vec) (verts : List Vec)
    (nbrs : Vec → List Vec)
    (hcl : ∀ u ∈ verts, ∀ v ∈ nbrs u, v ∈ verts)
    (hlen : ∀ u ∈ verts, ∀ v ∈ verts, List.length u = List.length v)
    (himp : ∀ f ∈ fs, ∀ u ∈ verts, u ≠ sink f verts →
      ∃ v ∈ nbrs u, dot f u < dot f v) :
    monodiam fs verts nbrs ≤ verts.length - 1 := by
  have hod : ∀ f ∈ fs, oridiam f verts nbrs ≤ verts.length - 1 := by
    intro f hf
    unfold oridiam
    apply listMax_le
    intro x hx
    obtain ⟨u, hu, hxu⟩ := List.mem_map.mp hx
    rw [← hxu]
    exact (distances_final_ub (dir_neighbors f nbrs) verts (sink f verts)
      (dir_neighbors_closed f verts nbrs hcl)
      (improving_reach f verts nbrs hcl hlen (himp f hf)) u hu).1
  obtain ⟨_, _, h3⟩ := foldl_runmax (fun f => oridiam f verts nbrs) fs 0
  rcases h3 with h3 | ⟨f, hf, h3⟩
  · have hm : monodiam fs verts nbrs = 0 := h3
    rw [hm]
    exact Nat.zero_le _
  · have hm : monodiam fs verts nbrs = oridiam f verts nbrs := h3
    rw [hm]
    exact hod f hf

/-- C7: for a graph on the vertex list `verts`, the relaxation loop
executes at most `verts.length` rounds; each vertex with a nonempty
out-neighborhood is updated to the minimum of its distance and one more
than the minimum over its out-neighbors; a round that changes nothing stops
the loop at once; and an early-exited loop returns a fixpoint of the round
update. -/
theorem c7_round_count_fixpoint {V : Type} [DecidableEq V]
    (adj : V → List V) (verts : List V) (d : V → Nat) :
    (relaxLoopC adj verts verts.length d).2 ≤ verts.length ∧
    (relaxLoopC adj verts verts.length d).1 = relaxLoop adj verts verts.length d ∧
    (∀ (p : (V → Nat) × Bool) (u : V), adj u ≠ [] →
      (relaxVertex adj p u).1 u =
        Nat.min (p.1 u) (listMin ((adj u).map p.1) + 1)) ∧
    (∀ (fuel : Nat) (d' : V → Nat), (relaxRound adj verts d').2 = true →
      relaxLoopC adj verts (fuel + 1) d' = (d', 1)) ∧
    ((relaxLoopC adj verts verts.length d).2 < verts.length →
      (relaxRound adj verts (relaxLoopC adj verts verts.length d).1).1 =
        (relaxLoopC adj verts verts.length d).1) :=
  ⟨relaxLoopC_count_le adj verts verts.length d,
   relaxLoopC_fst adj verts verts.length d,
   fun p u h => relaxVertex_self adj p u h,
   fun fuel d' h => relaxLoopC_early adj verts fuel d' h,
   fun h => relaxLoopC_fix adj verts verts.length d h⟩

/-- C8: no single relaxation step, no round, and hence no sequence of
rounds ever increases any vertex's stored distance. -/
theorem c8_distances_nonincreasing {V : Type} [DecidableEq V]
    (adj : V → List V) (verts : List V) :
    (∀ (p : (V → Nat) × Bool) (u x : V), (relaxVertex adj p u).1 x ≤ p.1 x) ∧
    (∀ (d : V → Nat) (x : V), (relaxRound adj verts d).1 x ≤ d x) ∧
    (∀ (j : Nat) (d : V → Nat) (x : V),
      relaxIter adj verts (j + 1) d x ≤ relaxIter adj verts j d x) ∧
    (∀ (fuel : Nat) (d : V → Nat) (x : V), relaxLoop adj verts fuel d x ≤ d x) :=
  ⟨fun p u x => relaxVertex_le adj p u x,
   fun d x => relaxRound_le adj verts d x,
   fun j d x => relaxRound_le adj verts (relaxIter adj verts j d) x,
   fun fuel d x => relaxLoop_le adj verts fuel d x⟩

/-- C10: for a generic orientation vector (no tie on any edge and no two
vertices sharing a functional value), the vertex selected by the linear
scan has an empty out-neighbor list in the directed graph built for `f`,
and its distance stays 0 through every relaxation round. -/
theorem c10_scanned_sink_is_sink (f : Vec) (verts : List Vec)
    (nbrs : Vec → List Vec) (hne : verts ≠ [])
    (hcl : ∀ u ∈ verts, ∀ v ∈ nbrs u, v ∈ verts)
    (hlen : ∀ u ∈ verts, ∀ v ∈ verts, List.length u = List.length v)
    (hgenE : ∀ u ∈ verts, ∀ v ∈ nbrs u, dot f (vsub v u) ≠ 0)
    (hgenV : ∀ u ∈ verts, ∀ v ∈ verts, u ≠ v → dot f u ≠ dot f v) :
    dir_neighbors f nbrs (sink f verts) = [] ∧
    ∀ fuel : Nat,
      relaxLoop (dir_neighbors f nbrs) verts fuel
        (distInit verts.length (sink f verts)) (sink f verts) = 0 := by
  have hs := sink_mem f verts hne
  constructor
  · unfold dir_neighbors
    rw [List.filter_eq_nil_iff]
    intro v hv hcon
    rw [decide_eq_true_iff] at hcon
    have hvm : v ∈ verts := hcl _ hs v hv
    rw [dot_vsub f v (sink f verts) (hlen v hvm _ hs)] at hcon
    have := sink_max f verts v hvm
    linarith
  · intro fuel
    exact relaxLoop_snk (dir_neighbors f nbrs) verts (sink f verts) fuel
      verts.length

/-- C4 (amended): the deduplicated canonical edge-direction set contains
exactly one of `{d, −d}` for every parallelism class of enumerated edge
directions, and a permuted enumeration of the same vertices and edges
yields a canonical set representing the same parallelism classes, with the
same number of canonical directions; the set itself may pick the opposite
representative of a class (see the counterexample). -/
theorem c4_direction_classes (g g' : List (Vec × List Vec))
    (hperm : List.Perm g g') :
    (∀ d ∈ dirList g,
      ((edge_dirs g).filter (fun x => x = d ∨ x = vneg d)).length = 1) ∧
    (edge_dirs g).length = (edge_dirs g').length ∧
    ((edge_dirs g).map classPair).toFinset =
      ((edge_dirs g').map classPair).toFinset := by
  have hdperm : List.Perm (dirList g) (dirList g') := dirList_perm g g' hperm
  have hclasses : ((dirList g).map classPair).toFinset =
      ((dirList g').map classPair).toFinset :=
    List.toFinset_eq_of_perm _ _ (List.Perm.map classPair hdperm)
  refine ⟨?_, ?_, ?_⟩
  · intro d hd
    unfold edge_dirs
    apply filter_class_length_one
    · exact dedupDirs_nodup (dirList g)
    · rw [dedupDirs_mem_classes]
      exact List.mem_map_of_mem classPair hd
  · unfold edge_dirs
    rw [dedupDirs_length, dedupDirs_length, hclasses]
  · unfold edge_dirs
    have e1 := dedupDirs_classes (dirList g)
    have e2 := dedupDirs_classes (dirList g')
    rw [e1, e2, hclasses]

/-- C4 counterexample: permuting the vertex enumeration of a single-edge
graph flips which of `{d, −d}` is retained, so the canonical set is not
invariant under permuted enumeration (only the classes and the count are). -/
theorem c4_perm_counterexample :
    List.Perm ([([0], [[1]]), ([1], [[0]])] : List (Vec × List Vec))
      ([([1], [[0]]), ([0], [[1]])] : List (Vec × List Vec)) ∧
    ([-1] : Vec) ∈ edge_dirs [([0], [[1]]), ([1], [[0]])] ∧
    ([-1] : Vec) ∉ edge_dirs [([1], [[0]]), ([0], [[1]])] := by
  refine ⟨List.Perm.swap _ _ _, ?_, ?_⟩
  · norm_num [edge_dirs, dedupDirs, dirList, edgePairs, insertDir,
      normalizeDir, vsub, vneg, onenorm]
  · norm_num [edge_dirs, dedupDirs, dirList, edgePairs, insertDir,
      normalizeDir, vsub, vneg, onenorm]

/-! ### Concrete instances -/

theorem pathAdj_lt : ∀ (a b : Nat), b ∈ pathAdj a → b < a := by
  intro a b hb
  match a with
  | 0 => simp [pathAdj] at hb
  | 1 => simp [pathAdj] at hb; omega
  | 2 => simp [pathAdj] at hb; omega
  | (n + 3) => simp [pathAdj] at hb

theorem pathAdj_acyc :
    ∀ u ∈ [0, 1, 2], ¬ Relation.TransGen (fun a b => b ∈ pathAdj a) u u := by
  intro u _ hcon
  have hlt : ∀ a b : Nat, Relation.TransGen (fun a b => b ∈ pathAdj a) a b →
      b < a := by
    intro a b h
    induction h with
    | single h => exact pathAdj_lt _ _ h
    | tail _ h ih => exact lt_trans (pathAdj_lt _ _ h) ih
  exact lt_irrefl u (hlt u u hcon)

/-- C3 witness: the path `2 → 1 → 0` with sink 0. -/
theorem c3_witness :
    bfs pathAdj [0, 1, 2] 0 2 = some (distances_final pathAdj [0, 1, 2] 0 2) :=
  c3_relaxation_eq_bfs pathAdj [0, 1, 2] 0 (by decide) (by decide)
    (by decide) pathAdj_acyc (by decide) 2 (by decide)

/-- C7 witness: on the path graph the loop stops after two rounds, below
the three-round budget, and the returned map is a round fixpoint. -/
theorem c7_witness :
    (relaxLoopC pathAdj [0, 1, 2] 3 (distInit 3 0)).2 ≤ 3 ∧
    (relaxRound pathAdj [0, 1, 2]
        (relaxLoopC pathAdj [0, 1, 2] 3 (distInit 3 0)).1).1 =
      (relaxLoopC pathAdj [0, 1, 2] 3 (distInit 3 0)).1 :=
  ⟨(c7_round_count_fixpoint pathAdj [0, 1, 2] (distInit 3 0)).1,
   (c7_round_count_fixpoint pathAdj [0, 1, 2] (distInit 3 0)).2.2.2.2 (by decide)⟩

/-- C8 witness: one relaxation step on the path graph does not raise the
stored distance of any vertex. -/
theorem c8_witness :
    (relaxVertex pathAdj ((fun _ => 3), true) 1).1 2 ≤ 3 :=
  (c8_distances_nonincreasing pathAdj [0, 1, 2]).1 ((fun _ => 3), true) 1 2

theorem pairNbrs_zero : pairNbrs [0] = [[1]] := by
  norm_num [pairNbrs]

theorem pairNbrs_one : pairNbrs [1] = [[0]] := by
  norm_num [pairNbrs]

theorem pair_sink : sink [1] [[0], [1]] = [1] := by
  norm_num [sink, scanStep, dot]

theorem pair_closed : ∀ u ∈ ([[0], [1]] : List Vec), ∀ v ∈ pairNbrs u,
    v ∈ ([[0], [1]] : List Vec) := by
  intro u hu v hv
  fin_cases hu
  · rw [pairNbrs_zero] at hv
    simp at hv
    simp [hv]
  · rw [pairNbrs_one] at hv
    simp at hv
    simp [hv]

theorem pair_lengths : ∀ u ∈ ([[0], [1]] : List Vec),
    ∀ v ∈ ([[0], [1]] : List Vec), List.length u = List.length v := by
  intro u hu v hv
  fin_cases hu <;> fin_cases hv <;> rfl

theorem pair_generic : ∀ u ∈ ([[0], [1]] : List Vec),
    ∀ v ∈ ([[0], [1]] : List Vec), u ≠ v → dot [1] u ≠ dot [1] v := by
  intro u hu v hv huv
  fin_cases hu <;> fin_cases hv
  · exact absurd rfl huv
  · norm_num [dot]
  · norm_num [dot]
  · exact absurd rfl huv

/-- C2 witness: on the generic segment the scan returns the unique
maximizer. -/
theorem c2_witness :
    sink [1] [[0], [1]] ∈ ([[0], [1]] : List Vec) ∧
    ∀ v ∈ ([[0], [1]] : List Vec), v ≠ sink [1] [[0], [1]] →
      dot [1] v < dot [1] (sink [1] [[0], [1]]) :=
  c2_sink_unique_max [1] [[0], [1]] (by simp) pair_generic

/-- C5 witness: the monotone diameter of the directed segment is at most 1. -/
theorem c5_witness : monodiam [[1]] [[0], [1]] pairNbrs ≤ 1 :=
  c5_monodiam_le [[1]] [[0], [1]] pairNbrs pair_closed pair_lengths
    (by
      intro f hf u hu hne
      have hfe : f = [1] := by simpa using hf
      subst hfe
      rw [pair_sink] at hne
      fin_cases hu
      · exact ⟨[1], by rw [pairNbrs_zero]; simp, by norm_num [dot]⟩
      · exact absurd rfl hne)

/-- C6 witness: on the segment's single edge, exactly one direction is
present for the orientation vector `f = (1)`. -/
theorem c6_witness :
    ([1] : Vec) ∈ dir_neighbors [1] pairNbrs [0] ↔
      ¬ ([0] : Vec) ∈ dir_neighbors [1] pairNbrs [1] :=
  (c6_edge_orientation [1] [0] [1] pairNbrs).2
    (by rw [pairNbrs_zero]; simp)
    (by rw [pairNbrs_one]; simp)
    (by norm_num [dot, vsub])

/-- C10 witness: on the segment with `f = (1)`, the scanned sink has no
out-neighbors and keeps distance 0. -/
theorem c10_witness :
    dir_neighbors [1] pairNbrs (sink [1] [[0], [1]]) = [] ∧
    relaxLoop (dir_neighbors [1] pairNbrs) [[0], [1]] 2
      (distInit 2 (sink [1] [[0], [1]])) (sink [1] [[0], [1]]) = 0 := by
  have h := c10_scanned_sink_is_sink [1] [[0], [1]] pairNbrs (by simp)
    pair_closed pair_lengths
    (by
      intro u hu v hv
      fin_cases hu
      · rw [pairNbrs_zero] at hv
        simp at hv
        rw [hv]
        norm_num [dot, vsub]
      · rw [pairNbrs_one] at hv
        simp at hv
        rw [hv]
        norm_num [dot, vsub])
    pair_generic
  exact ⟨h.1, h.2 2⟩

/-- C4 witness: the two permuted enumerations of the segment graph yield
canonical direction sets of the same size. -/
theorem c4_witness :
    (edge_dirs ([([0], [[1]]), ([1], [[0]])] : List (Vec × List Vec))).length =
      (edge_dirs ([([1], [[0]]), ([0], [[1]])] : List (Vec × List Vec))).length :=
  (c4_direction_classes _ _ (List.Perm.swap _ _ _)).2.1

end MonoDiam
